import Mathlib

/-!
Verification of the dispersion sweep engine of
`examples/linear_elasticity/dispersion_analysis.py`.

The embedding models the sweep loop of `main` (the per-step assembly of the
complex system matrix, the eigensolver invocation, the frequency derivation
and the record emission), the `_max_diff_csr` symmetry diagnostic, and the
wave-direction normalization.  Scalars produced by the eigensolver and the
wave magnitudes are modelled as rationals (IEEE doubles are rationals); the
results of `numpy.sqrt` and of the division by the Euclidean norm are kept
symbolic so that NaN and infinity outcomes are represented exactly.
-/

namespace DispersionAnalysis

/-- Result of `numpy.sqrt` on a real double: for a non-negative input the
(symbolically kept) square root, for a negative input NaN. -/
inductive NpFloat : Type
  | sqrtOf (x : ℚ)
  | nan
  deriving DecidableEq, Repr

/-- `numpy.sqrt` applied elementwise in `omegas = nm.sqrt(eigs)` (line 377):
a negative operand yields NaN (with a runtime warning, not an exception). -/
def npSqrt (x : ℚ) : NpFloat :=
  if 0 ≤ x then NpFloat.sqrtOf x else NpFloat.nan

/-- Whether the modelled float is the IEEE NaN. -/
def NpFloat.isNaN : NpFloat → Bool
  | NpFloat.sqrtOf _ => false
  | NpFloat.nan => true

/-- Errors the eigensolver call can raise (sfepy solver taxonomy). -/
inductive SolverError : Type
  | convergence
  | singular
  deriving DecidableEq, Repr

/-- The complex system matrix of line 363,
`mtx_a = mtx_k + wmag**2 * mtx_s + (1j * wmag) * mtx_r`. -/
def mtxA {n : ℕ} (K S R : Matrix (Fin n) (Fin n) ℝ) (wmag : ℝ) :
    Matrix (Fin n) (Fin n) ℂ :=
  K.map Complex.ofReal + ((wmag : ℂ) ^ 2) • S.map Complex.ofReal
    + (Complex.I * (wmag : ℂ)) • R.map Complex.ofReal

/-- The eigensolver interface: `eig_solver(mtx_a, mtx_b, n_eigs=...,
eigenvectors=...)` (lines 370-376).  It receives the complex matrix A and the
real matrix B, the requested eigenvalue count and the eigenvector flag, and
either returns (eigenvalues, optional reduced eigenvectors) or raises. -/
def EigSolver (n : ℕ) : Type :=
  Matrix (Fin n) (Fin n) ℂ → Matrix (Fin n) (Fin n) ℝ → ℕ → Bool →
    Except SolverError (List ℚ × Option (List (Fin n → ℂ)))

/-- The options of `main` that steer the sweep loop. -/
structure SweepOptions : Type where
  n_eigs : ℕ
  eigs_only : Bool
  deriving DecidableEq, Repr

/-- One dispersion record: the data emitted by `log(*out, x=[wmag, wmag])`
at one sweep step (line 384): the wave magnitude, the eigenvalues and the
derived frequencies. -/
structure StepRecord : Type where
  wmag : ℚ
  eigs : List ℚ
  omegas : List NpFloat
  deriving DecidableEq, Repr

/-- Observable events of one sweep step: the eigensolver invocation (with
the actual matrices passed, line 370/375) and each
`variables.make_full_vec(svecs[:, ii])` call (line 391). -/
inductive Event (n : ℕ) : Type
  | solveCalled (wmag : ℚ) (A : Matrix (Fin n) (Fin n) ℂ)
      (B : Matrix (Fin n) (Fin n) ℝ) (n_eigs : ℕ) (withVectors : Bool)
  | fullVecCalled (col : ℕ)

/-- Whether an event is an eigensolver invocation. -/
def Event.isSolve {n : ℕ} : Event n → Bool
  | Event.solveCalled _ _ _ _ _ => true
  | Event.fullVecCalled _ => false

/-- Whether an event is a full-vector reconstruction
(`variables.make_full_vec`). -/
def Event.isFullVec {n : ℕ} : Event n → Bool
  | Event.solveCalled _ _ _ _ _ => false
  | Event.fullVecCalled _ => true

/-- The sweep state: the four assembled base matrices (lines 308-322), the
dispersion records emitted so far and the observable event trace. -/
structure SweepState (n : ℕ) : Type where
  mtx_k : Matrix (Fin n) (Fin n) ℝ
  mtx_m : Matrix (Fin n) (Fin n) ℝ
  mtx_s : Matrix (Fin n) (Fin n) ℝ
  mtx_r : Matrix (Fin n) (Fin n) ℝ
  records : List StepRecord
  events : List (Event n)

/-- The four base matrices of a state, bundled for frame statements. -/
def SweepState.baseMats {n : ℕ} (st : SweepState n) :
    Matrix (Fin n) (Fin n) ℝ × Matrix (Fin n) (Fin n) ℝ ×
      Matrix (Fin n) (Fin n) ℝ × Matrix (Fin n) (Fin n) ℝ :=
  (st.mtx_k, st.mtx_m, st.mtx_s, st.mtx_r)

/-- Tail of a step after a successful solver call: `omegas = nm.sqrt(eigs)`
(line 377), the record emission `log(*out, ...)` (lines 381-384), and, when
`svecs is not None`, one `make_full_vec` call per eigenvector column
(lines 386-391). -/
def stepFinish {n : ℕ} (st : SweepState n) (wmag : ℚ) (eigs : List ℚ)
    (svecs : Option (List (Fin n → ℂ))) : SweepState n :=
  let omegas := eigs.map npSqrt
  let st1 : SweepState n :=
    { st with records := st.records ++ [⟨wmag, eigs, omegas⟩] }
  match svecs with
  | none => st1
  | some vs =>
      { st1 with
        events := st1.events ++ (List.range vs.length).map Event.fullVecCalled }

/-- One iteration of the sweep loop `for iv, wmag in wmag_stepper:`
(lines 359-401): assemble `mtx_a` and `mtx_b` (363-364), invoke the
eigensolver with `eigenvectors=False` and `svecs = None` when `eigs_only`
is set, else with `eigenvectors=True` (369-376), then derive frequencies,
emit the record and reconstruct eigenvectors.  A solver error propagates
(there is no `try` around the loop body); the error carries the state at
the moment it is raised. -/
def sweepStep {n : ℕ} (solver : EigSolver n) (opts : SweepOptions)
    (st : SweepState n) (wmag : ℚ) :
    Except (SweepState n × SolverError) (SweepState n) :=
  let mtx_a := mtxA st.mtx_k st.mtx_s st.mtx_r (wmag : ℝ)
  let mtx_b := st.mtx_m
  let st1 : SweepState n :=
    { st with
      events := st.events ++
        [Event.solveCalled wmag mtx_a mtx_b opts.n_eigs (!opts.eigs_only)] }
  if opts.eigs_only then
    match solver mtx_a mtx_b opts.n_eigs false with
    | Except.error e => Except.error (st1, e)
    | Except.ok r => Except.ok (stepFinish st1 wmag r.1 none)
  else
    match solver mtx_a mtx_b opts.n_eigs true with
    | Except.error e => Except.error (st1, e)
    | Except.ok r => Except.ok (stepFinish st1 wmag r.1 r.2)

/-- The whole sweep loop over the magnitude sequence: steps run in order and
an uncaught solver error aborts the remaining iterations. -/
def runSweep {n : ℕ} (solver : EigSolver n) (opts : SweepOptions)
    (st : SweepState n) : List ℚ →
    Except (SweepState n × SolverError) (SweepState n)
  | [] => Except.ok st
  | wmag :: rest =>
      match sweepStep solver opts st wmag with
      | Except.error e => Except.error e
      | Except.ok st1 => runSweep solver opts st1 rest

/-- The state observed when the run (or a single step) ends: the final state
on success, the state at the point of the raised error otherwise (records
already emitted to the log persist across the exception). -/
def sweepOutState {n : ℕ} :
    Except (SweepState n × SolverError) (SweepState n) → SweepState n
  | Except.ok st => st
  | Except.error (st, _) => st

/-- Modelled from the spec: the wave magnitude sequence produced by
`TimeStepper(rng[0], rng[1], dt=None, n_step=rng[2])` (line 359; the
`TimeStepper` class lives outside `src/`): `count` linearly spaced values
from `start` to `stop`, per the spec's "defined by a start, stop, and count
(linearly spaced)". -/
def waveMagnitudes (start stop : ℚ) (count : ℕ) : List ℚ :=
  if count = 0 then []
  else if count = 1 then [start]
  else (List.range count).map
    (fun i => start + (stop - start) * i / (count - 1 : ℕ))

/-- A CSR sparse matrix, modelled as its list of stored entries
(row-column key, value).  Stored entries may be explicit zeros. -/
structure Csr : Type where
  data : List ((ℕ × ℕ) × ℚ)
  deriving DecidableEq, Repr

/-- The value of a stored entry at a key, `0` when the key is absent. -/
def Csr.get (m : Csr) (k : ℕ × ℕ) : ℚ :=
  match m.data.find? (fun e => e.1 = k) with
  | some e => e.2
  | none => 0

/-- Sparse matrix subtraction `mtx1 - mtx2`: the result's stored pattern is
the union of the operands' patterns, values subtracted entrywise. -/
def csrSub (m1 m2 : Csr) : Csr :=
  ⟨((m1.data.map (fun e => e.1)) ++ (m2.data.map (fun e => e.1))).dedup.map
    (fun k => (k, m1.get k - m2.get k))⟩

/-- Sparse transpose `mtx.T`: every stored entry keeps its value at the
swapped key. -/
def csrTranspose (m : Csr) : Csr :=
  ⟨m.data.map (fun e => ((e.1.2, e.1.1), e.2))⟩

/-- `numpy.ndarray.max()` on a 1-d array: raises `ValueError` on a zero-size
array, else returns the maximum. -/
def npMax (l : List ℚ) : Except String ℚ :=
  match l with
  | [] => Except.error "zero-size array to reduction operation maximum"
  | x :: xs => Except.ok (xs.foldl max x)

/-- `_max_diff_csr(mtx1, mtx2)` (lines 119-121):
`aux = nm.abs((mtx1 - mtx2).data); return aux.max() if len(aux) else 0.0`. -/
def max_diff_csr (mtx1 mtx2 : Csr) : Except String ℚ :=
  let aux := (csrSub mtx1 mtx2).data.map (fun e => |e.2|)
  if aux.length ≠ 0 then npMax aux else Except.ok 0

/-- Result of dividing the float `x` by the float `√q` (`q` the sum of
squares of the direction components): NaN for `0/0`, a signed infinity for
`x/0` with `x ≠ 0`, else the (symbolically kept) finite quotient. -/
inductive NpVal : Type
  | finite (x q : ℚ)
  | posInf
  | negInf
  | nan
  deriving DecidableEq, Repr

/-- IEEE division of `x` by `√q` for `q ≥ 0`, warning-only on zero
divisors (numpy raises no exception here). -/
def npDivBySqrt (x q : ℚ) : NpVal :=
  if q = 0 then
    if x = 0 then NpVal.nan
    else if 0 < x then NpVal.posInf else NpVal.negInf
  else NpVal.finite x q

/-- The squared Euclidean norm of a vector of floats. -/
def normSq (l : List ℚ) : ℚ := (l.map (fun x => x ^ 2)).sum

/-- The wave-direction normalization of lines 264-265:
`wdir = nm.asarray(options.wave_dir[:dim]); wdir = wdir / nm.linalg.norm(wdir)`.
The input direction is truncated to the spatial dimension and divided
componentwise by its Euclidean norm, with no guard against a zero norm. -/
def normalizeWdir (wave_dir : List ℚ) (dim : ℕ) : List NpVal :=
  let wdir := wave_dir.take dim
  wdir.map (fun x => npDivBySqrt x (normSq wdir))

/-- Whether a solver-invocation event of the sweep trace carries exactly the
matrices of line 363-364: `A = K + κ²·S + i·κ·R` entrywise and `B = M`,
relative to the base matrices of the state `base`.  Reconstruction events
carry no matrices. -/
def eventMatchesAssembly {n : ℕ} (base : SweepState n) : Event n → Prop
  | Event.solveCalled wmag A B _ _ =>
      (∀ i j, A i j = (base.mtx_k i j : ℂ)
        + ((wmag : ℝ) : ℂ) ^ 2 * (base.mtx_s i j : ℂ)
        + Complex.I * ((wmag : ℝ) : ℂ) * (base.mtx_r i j : ℂ)) ∧ B = base.mtx_m
  | Event.fullVecCalled _ => True

/-- A sweep state with zero base matrices and empty logs, used as the
concrete starting point of the evaluated runs. -/
def zeroState (n : ℕ) : SweepState n := ⟨0, 0, 0, 0, [], []⟩

/-- A solver that reports the requested number of zero eigenvalues and no
eigenvectors. -/
def replicateSolver (n : ℕ) : EigSolver n :=
  fun _ _ n_eigs _ => Except.ok (List.replicate n_eigs 0, none)

/-- A solver that returns one slightly negative eigenvalue, as produced by
floating-point noise near a zero eigenvalue. -/
def noiseSolver (n : ℕ) : EigSolver n :=
  fun _ _ _ _ => Except.ok ([-(1 : ℚ)/1000000000000000], none)

/-- A solver that always fails to converge. -/
def divergingSolver (n : ℕ) : EigSolver n :=
  fun _ _ _ _ => Except.error SolverError.convergence

/-- Options requesting two eigenvalues, eigenvalues only. -/
def optsTwoEigsOnly : SweepOptions := ⟨2, true⟩

/-- Options requesting three eigenvalues together with eigenvectors. -/
def optsThreeWithVecs : SweepOptions := ⟨3, false⟩

/-! ### Lemmas about the assembled system matrix -/

theorem mtxA_apply {n : ℕ} (K S R : Matrix (Fin n) (Fin n) ℝ) (w : ℝ)
    (i j : Fin n) :
    mtxA K S R w i j = (K i j : ℂ) + (w : ℂ) ^ 2 * (S i j : ℂ)
      + Complex.I * (w : ℂ) * (R i j : ℂ) := by
  simp [mtxA, Matrix.add_apply, Matrix.smul_apply, Matrix.map_apply,
    smul_eq_mul]

/-- C4: At wave magnitude κ = 0 the assembled matrix of line 363 equals the
stiffness matrix exactly: A(0) = K (as a complex matrix). -/
theorem mtxA_at_zero {n : ℕ} (K S R : Matrix (Fin n) (Fin n) ℝ) :
    mtxA K S R 0 = K.map Complex.ofReal := by
  ext i j
  simp [mtxA_apply, Matrix.map_apply]

/-- C3: for every κ ≥ 0, when K and S are exactly symmetric and R exactly
antisymmetric, the assembled matrix A(κ) = K + κ²·S + i·κ·R is exactly
Hermitian. -/
theorem mtxA_hermitian {n : ℕ} (K S R : Matrix (Fin n) (Fin n) ℝ) (κ : ℝ)
    (hκ : 0 ≤ κ) (hK : K.transpose = K) (hS : S.transpose = S)
    (hR : R.transpose = -R) :
    (mtxA K S R κ).conjTranspose = mtxA K S R κ := by
  ext i j
  have hk : K j i = K i j := by
    have h := congrFun (congrFun hK i) j
    simpa [Matrix.transpose_apply] using h
  have hs : S j i = S i j := by
    have h := congrFun (congrFun hS i) j
    simpa [Matrix.transpose_apply] using h
  have hr : R j i = -R i j := by
    have h := congrFun (congrFun hR i) j
    simpa [Matrix.transpose_apply, Matrix.neg_apply] using h
  rw [Matrix.conjTranspose_apply, mtxA_apply, mtxA_apply, hk, hs, hr]
  simp only [Complex.star_def, map_add, map_mul, map_pow, map_neg,
    Complex.conj_ofReal, Complex.conj_I, Complex.ofReal_neg]
  ring

/-- Witness for C3 at a concrete input: the identity stiffness and wave
matrices and the zero coupling matrix at κ = 2. -/
theorem mtxA_hermitian_witness :
    (0 : ℝ) ≤ 2 ∧ ((1 : Matrix (Fin 2) (Fin 2) ℝ).transpose = 1) ∧
      ((0 : Matrix (Fin 2) (Fin 2) ℝ).transpose = -0) ∧
      (mtxA (1 : Matrix (Fin 2) (Fin 2) ℝ) 1 0 2).conjTranspose =
        mtxA 1 1 0 2 :=
  ⟨by norm_num, Matrix.transpose_one, by simp,
    mtxA_hermitian 1 1 0 2 (by norm_num) Matrix.transpose_one
      Matrix.transpose_one (by simp)⟩

/-! ### Structural lemmas about one sweep step -/

theorem sweepStep_eq {n : ℕ} (solver : EigSolver n) (opts : SweepOptions)
    (st : SweepState n) (wmag : ℚ) :
    sweepStep solver opts st wmag =
      (match solver (mtxA st.mtx_k st.mtx_s st.mtx_r (wmag : ℝ)) st.mtx_m
          opts.n_eigs (!opts.eigs_only) with
      | Except.error e => Except.error
          ({ st with events := st.events ++
              [Event.solveCalled wmag
                (mtxA st.mtx_k st.mtx_s st.mtx_r (wmag : ℝ)) st.mtx_m
                opts.n_eigs (!opts.eigs_only)] }, e)
      | Except.ok r => Except.ok
          (stepFinish
            { st with events := st.events ++
                [Event.solveCalled wmag
                  (mtxA st.mtx_k st.mtx_s st.mtx_r (wmag : ℝ)) st.mtx_m
                  opts.n_eigs (!opts.eigs_only)] }
            wmag r.1 (if opts.eigs_only then none else r.2))) := by
  cases h : opts.eigs_only <;> simp [sweepStep, h]

theorem stepFinish_records {n : ℕ} (st : SweepState n) (wmag : ℚ)
    (eigs : List ℚ) (svecs : Option (List (Fin n → ℂ))) :
    (stepFinish st wmag eigs svecs).records =
      st.records ++ [⟨wmag, eigs, eigs.map npSqrt⟩] := by
  cases svecs <;> rfl

theorem stepFinish_baseMats {n : ℕ} (st : SweepState n) (wmag : ℚ)
    (eigs : List ℚ) (svecs : Option (List (Fin n → ℂ))) :
    (stepFinish st wmag eigs svecs).baseMats = st.baseMats := by
  cases svecs <;> rfl

theorem stepFinish_events {n : ℕ} (st : SweepState n) (wmag : ℚ)
    (eigs : List ℚ) (svecs : Option (List (Fin n → ℂ))) :
    ∃ tail, (stepFinish st wmag eigs svecs).events = st.events ++ tail ∧
      ∀ ev ∈ tail, Event.isFullVec ev = true := by
  cases svecs with
  | none => exact ⟨[], by simp [stepFinish], by simp⟩
  | some vs =>
      refine ⟨(List.range vs.length).map Event.fullVecCalled, rfl, ?_⟩
      intro ev hev
      rcases List.mem_map.mp hev with ⟨c, _, rfl⟩
      rfl

theorem stepFinish_events_eigsOnly {n : ℕ} (st : SweepState n) (wmag : ℚ)
    (eigs : List ℚ) :
    (stepFinish st wmag eigs none).events = st.events := rfl

/-- On any outcome, a sweep step leaves the four base matrices untouched. -/
theorem sweepStep_baseMats {n : ℕ} (solver : EigSolver n)
    (opts : SweepOptions) (st : SweepState n) (wmag : ℚ) :
    (sweepOutState (sweepStep solver opts st wmag)).baseMats =
      st.baseMats := by
  rw [sweepStep_eq]
  cases h : solver (mtxA st.mtx_k st.mtx_s st.mtx_r (wmag : ℝ)) st.mtx_m
      opts.n_eigs (!opts.eigs_only) with
  | error e => rfl
  | ok r =>
      simp only [sweepOutState]
      rw [stepFinish_baseMats]
      rfl

/-- A sweep step appends exactly one solver-invocation event built from the
state's base matrices, followed only by reconstruction events. -/
theorem sweepStep_events {n : ℕ} (solver : EigSolver n)
    (opts : SweepOptions) (st : SweepState n) (wmag : ℚ) :
    ∃ tail, (sweepOutState (sweepStep solver opts st wmag)).events =
      st.events ++ Event.solveCalled wmag
        (mtxA st.mtx_k st.mtx_s st.mtx_r (wmag : ℝ)) st.mtx_m
        opts.n_eigs (!opts.eigs_only) :: tail ∧
      ∀ ev ∈ tail, Event.isFullVec ev = true := by
  rw [sweepStep_eq]
  cases h : solver (mtxA st.mtx_k st.mtx_s st.mtx_r (wmag : ℝ)) st.mtx_m
      opts.n_eigs (!opts.eigs_only) with
  | error e => exact ⟨[], by simp [sweepOutState], by simp⟩
  | ok r =>
      simp only [sweepOutState]
      rcases stepFinish_events
          { st with events := st.events ++
              [Event.solveCalled wmag
                (mtxA st.mtx_k st.mtx_s st.mtx_r (wmag : ℝ)) st.mtx_m
                opts.n_eigs (!opts.eigs_only)] }
          wmag r.1 (if opts.eigs_only then none else r.2) with ⟨tail, heq, hall⟩
      exact ⟨tail, by simpa using heq, hall⟩

/-- A successful sweep step appends exactly one dispersion record, carrying
the step's magnitude, the solver's eigenvalues and their square roots. -/
theorem sweepStep_ok_records {n : ℕ} (solver : EigSolver n)
    (opts : SweepOptions) (st st1 : SweepState n) (wmag : ℚ)
    (h : sweepStep solver opts st wmag = Except.ok st1) :
    ∃ eigs, st1.records = st.records ++ [⟨wmag, eigs, eigs.map npSqrt⟩] := by
  rw [sweepStep_eq] at h
  cases hs : solver (mtxA st.mtx_k st.mtx_s st.mtx_r (wmag : ℝ)) st.mtx_m
      opts.n_eigs (!opts.eigs_only) with
  | error e => rw [hs] at h; exact absurd h (by simp)
  | ok r =>
      rw [hs] at h
      refine ⟨r.1, ?_⟩
      cases h
      rw [stepFinish_records]

/-- A failed sweep step leaves the records untouched and reports the error
the solver call raised. -/
theorem sweepStep_error {n : ℕ} (solver : EigSolver n)
    (opts : SweepOptions) (st st1 : SweepState n) (wmag : ℚ)
    (e : SolverError)
    (h : sweepStep solver opts st wmag = Except.error (st1, e)) :
    st1.records = st.records ∧
      solver (mtxA st.mtx_k st.mtx_s st.mtx_r (wmag : ℝ)) st.mtx_m
        opts.n_eigs (!opts.eigs_only) = Except.error e := by
  rw [sweepStep_eq] at h
  cases hs : solver (mtxA st.mtx_k st.mtx_s st.mtx_r (wmag : ℝ)) st.mtx_m
      opts.n_eigs (!opts.eigs_only) with
  | error e0 =>
      rw [hs] at h
      simp only [Except.error.injEq, Prod.mk.injEq] at h
      constructor
      · rw [← h.1]
      · rw [h.2]
  | ok r => rw [hs] at h; exact absurd h (by simp)

/-! ### Structural lemmas about the whole sweep -/

theorem isOk_iff_exists {n : ℕ}
    (e : Except (SweepState n × SolverError) (SweepState n)) :
    e.isOk = true ↔ ∃ st, e = Except.ok st := by
  cases e <;> simp [Except.isOk, Except.toBool]

theorem runSweep_baseMats {n : ℕ} (solver : EigSolver n)
    (opts : SweepOptions) :
    ∀ (mags : List ℚ) (st : SweepState n),
      (sweepOutState (runSweep solver opts st mags)).baseMats =
        st.baseMats := by
  intro mags
  induction mags with
  | nil => intro st; rfl
  | cons wmag rest ih =>
      intro st
      simp only [runSweep]
      cases h : sweepStep solver opts st wmag with
      | error p =>
          have hb := sweepStep_baseMats solver opts st wmag
          rw [h] at hb
          exact hb
      | ok st1 =>
          have hb := sweepStep_baseMats solver opts st wmag
          rw [h] at hb
          rw [ih st1]
          exact hb

theorem runSweep_ok_records_map {n : ℕ} (solver : EigSolver n)
    (opts : SweepOptions) :
    ∀ (mags : List ℚ) (st st' : SweepState n),
      runSweep solver opts st mags = Except.ok st' →
      st'.records.map StepRecord.wmag =
        st.records.map StepRecord.wmag ++ mags := by
  intro mags
  induction mags with
  | nil =>
      intro st st' h
      cases h
      simp
  | cons wmag rest ih =>
      intro st st' h
      simp only [runSweep] at h
      cases hs : sweepStep solver opts st wmag with
      | error p => rw [hs] at h; exact absurd h (by simp)
      | ok st1 =>
          rw [hs] at h
          rcases sweepStep_ok_records solver opts st st1 wmag hs with ⟨eigs, hrec⟩
          rw [ih st1 st' h, hrec]
          simp

theorem runSweep_append {n : ℕ} (solver : EigSolver n) (opts : SweepOptions)
    (rest : List ℚ) :
    ∀ (pre : List ℚ) (st : SweepState n),
      runSweep solver opts st (pre ++ rest) =
        (match runSweep solver opts st pre with
        | Except.ok st1 => runSweep solver opts st1 rest
        | Except.error e => Except.error e) := by
  intro pre
  induction pre with
  | nil => intro st; rfl
  | cons wmag pre ih =>
      intro st
      simp only [List.cons_append, runSweep]
      cases hs : sweepStep solver opts st wmag with
      | error p => rfl
      | ok st1 => exact ih st1

/-- An event flagged as a reconstruction trivially satisfies the assembly
predicate. -/
theorem eventMatchesAssembly_of_isFullVec {n : ℕ} (base : SweepState n)
    (ev : Event n) (h : Event.isFullVec ev = true) :
    eventMatchesAssembly base ev := by
  cases ev with
  | solveCalled wmag A B ne wv => exact absurd h (by simp [Event.isFullVec])
  | fullVecCalled c => trivial

/-- A solver-invocation event is never flagged as a reconstruction. -/
theorem isFullVec_eq_false_of_isSolve {n : ℕ} (ev : Event n)
    (h : Event.isSolve ev = true) : Event.isFullVec ev = false := by
  cases ev with
  | solveCalled wmag A B ne wv => rfl
  | fullVecCalled c => exact absurd h (by simp [Event.isSolve])

theorem sweepStep_events_matchAssembly {n : ℕ} (solver : EigSolver n)
    (opts : SweepOptions) (base st : SweepState n) (wmag : ℚ)
    (hbase : st.baseMats = base.baseMats)
    (hev : ∀ ev ∈ st.events, eventMatchesAssembly base ev) :
    ∀ ev ∈ (sweepOutState (sweepStep solver opts st wmag)).events,
      eventMatchesAssembly base ev := by
  have hk : st.mtx_k = base.mtx_k := congrArg Prod.fst hbase
  have hm : st.mtx_m = base.mtx_m :=
    congrArg (fun p => p.2.1) hbase
  have hs : st.mtx_s = base.mtx_s :=
    congrArg (fun p => p.2.2.1) hbase
  have hr : st.mtx_r = base.mtx_r :=
    congrArg (fun p => p.2.2.2) hbase
  rcases sweepStep_events solver opts st wmag with ⟨tail, heq, htail⟩
  intro ev hmem
  rw [heq] at hmem
  rcases List.mem_append.mp hmem with hin | hin
  · exact hev ev hin
  · rcases List.mem_cons.mp hin with rfl | hin
    · refine ⟨?_, hm⟩
      intro i j
      rw [hk, hs, hr, mtxA_apply]
    · exact eventMatchesAssembly_of_isFullVec base ev (htail ev hin)

theorem runSweep_events_matchAssembly {n : ℕ} (solver : EigSolver n)
    (opts : SweepOptions) (base : SweepState n) :
    ∀ (mags : List ℚ) (st : SweepState n),
      st.baseMats = base.baseMats →
      (∀ ev ∈ st.events, eventMatchesAssembly base ev) →
      ∀ ev ∈ (sweepOutState (runSweep solver opts st mags)).events,
        eventMatchesAssembly base ev := by
  intro mags
  induction mags with
  | nil => intro st _ hev; exact hev
  | cons wmag rest ih =>
      intro st hbase hev
      simp only [runSweep]
      cases h : sweepStep solver opts st wmag with
      | error p =>
          have he := sweepStep_events_matchAssembly solver opts base st wmag
            hbase hev
          rw [h] at he
          exact he
      | ok st1 =>
          have he := sweepStep_events_matchAssembly solver opts base st wmag
            hbase hev
          rw [h] at he
          have hb := sweepStep_baseMats solver opts st wmag
          rw [h] at hb
          exact ih st1 (hb.trans hbase) he

/-! ### Lemmas about the eigenvalues-only path -/

theorem sweepStep_eigsOnly_ok {n : ℕ} (solver : EigSolver n)
    (opts : SweepOptions) (st st1 : SweepState n) (wmag : ℚ)
    (hE : opts.eigs_only = true)
    (h : sweepStep solver opts st wmag = Except.ok st1) :
    ∃ r, solver (mtxA st.mtx_k st.mtx_s st.mtx_r (wmag : ℝ)) st.mtx_m
        opts.n_eigs false = Except.ok r ∧
      st1.records = st.records ++ [⟨wmag, r.1, r.1.map npSqrt⟩] ∧
      st1.events = st.events ++
        [Event.solveCalled wmag
          (mtxA st.mtx_k st.mtx_s st.mtx_r (wmag : ℝ)) st.mtx_m
          opts.n_eigs false] := by
  rw [sweepStep_eq] at h
  simp only [hE, Bool.not_true] at h
  cases hs : solver (mtxA st.mtx_k st.mtx_s st.mtx_r (wmag : ℝ)) st.mtx_m
      opts.n_eigs false with
  | error e => rw [hs] at h; exact absurd h (by simp)
  | ok r =>
      rw [hs] at h
      simp only [if_pos rfl, Except.ok.injEq] at h
      refine ⟨r, rfl, ?_, ?_⟩
      · rw [← h]
        simp [stepFinish]
      · rw [← h]
        simp [stepFinish]

theorem runSweep_eigsOnly_shape {n : ℕ} (solver : EigSolver n)
    (opts : SweepOptions) (hE : opts.eigs_only = true)
    (hsol : ∀ A B r, solver A B opts.n_eigs false = Except.ok r →
      r.1.length = opts.n_eigs) :
    ∀ (mags : List ℚ) (st st' : SweepState n),
      runSweep solver opts st mags = Except.ok st' →
      (∀ rec ∈ st'.records,
        rec ∈ st.records ∨ rec.eigs.length = opts.n_eigs) ∧
      (∀ ev ∈ st'.events, ev ∈ st.events ∨ Event.isSolve ev = true) := by
  intro mags
  induction mags with
  | nil =>
      intro st st' h
      cases h
      exact ⟨fun rec hr => Or.inl hr, fun ev hv => Or.inl hv⟩
  | cons wmag rest ih =>
      intro st st' h
      simp only [runSweep] at h
      cases hs : sweepStep solver opts st wmag with
      | error p => rw [hs] at h; exact absurd h (by simp)
      | ok st1 =>
          rw [hs] at h
          rcases sweepStep_eigsOnly_ok solver opts st st1 wmag hE hs with
            ⟨r, hcall, hrec, hev⟩
          rcases ih st1 st' h with ⟨ihrec, ihev⟩
          constructor
          · intro rec hr
            rcases ihrec rec hr with hin | hlen
            · rw [hrec] at hin
              rcases List.mem_append.mp hin with hin | hin
              · exact Or.inl hin
              · rcases List.mem_singleton.mp hin with rfl
                exact Or.inr (hsol _ _ r hcall)
            · exact Or.inr hlen
          · intro ev hv
            rcases ihev ev hv with hin | hsolve
            · rw [hev] at hin
              rcases List.mem_append.mp hin with hin | hin
              · exact Or.inl hin
              · rcases List.mem_singleton.mp hin with rfl
                exact Or.inr rfl
            · exact Or.inr hsolve

/-! ### C1 and C7 -/

/-- C1: at every sweep step, the matrices handed to the eigensolver satisfy
`A = K + κ²·S + i·κ·R` entrywise and `B = M`, where K, M, S, R are the four
base matrices the sweep started from. -/
theorem assembled_system_matrices {n : ℕ} (solver : EigSolver n)
    (opts : SweepOptions) (init : SweepState n) (mags : List ℚ)
    (hev : init.events = []) :
    ∀ ev ∈ (sweepOutState (runSweep solver opts init mags)).events,
      eventMatchesAssembly init ev := by
  refine runSweep_events_matchAssembly solver opts init mags init rfl ?_
  rw [hev]
  intro ev hv
  exact absurd hv (List.not_mem_nil ev)

/-- Witness for C1: a concrete one-step sweep at κ = 5 whose recorded solver
invocation carries exactly the assembled matrices. -/
theorem assembled_system_matrices_witness :
    eventMatchesAssembly (zeroState 1)
      (Event.solveCalled 5
        (mtxA (zeroState 1).mtx_k (zeroState 1).mtx_s (zeroState 1).mtx_r
          ((5 : ℚ) : ℝ))
        (zeroState 1).mtx_m optsTwoEigsOnly.n_eigs false) :=
  assembled_system_matrices (replicateSolver 1) optsTwoEigsOnly
    (zeroState 1) [5] rfl _ (List.Mem.head _)

/-- C7: neither a single sweep step nor the whole sweep mutates the four
base matrices K, M, S, R; every step starts from the pristine ones. -/
theorem base_matrices_never_mutated {n : ℕ} (solver : EigSolver n)
    (opts : SweepOptions) (init : SweepState n) (mags : List ℚ) (wmag : ℚ) :
    (sweepOutState (runSweep solver opts init mags)).baseMats =
        init.baseMats ∧
      (sweepOutState (sweepStep solver opts init wmag)).baseMats =
        init.baseMats :=
  ⟨runSweep_baseMats solver opts mags init,
    sweepStep_baseMats solver opts init wmag⟩

/-! ### C6 and C9 -/

/-- C6: an eigenvalues-only sweep emits exactly one dispersion record per
swept magnitude, in sweep order (hence in increasing-κ order whenever the
magnitudes increase), each holding exactly `n_eigs` eigenvalues, and never
invokes the full-vector reconstruction. -/
theorem eigs_only_sweep_shape {n : ℕ} (solver : EigSolver n)
    (opts : SweepOptions) (init : SweepState n) (mags : List ℚ)
    (hE : opts.eigs_only = true)
    (hrec : init.records = []) (hev : init.events = [])
    (hsol : ∀ A B r, solver A B opts.n_eigs false = Except.ok r →
      r.1.length = opts.n_eigs)
    (hok : (runSweep solver opts init mags).isOk = true) :
    (sweepOutState (runSweep solver opts init mags)).records.map
        StepRecord.wmag = mags ∧
      (sweepOutState (runSweep solver opts init mags)).records.length =
        mags.length ∧
      (∀ rec ∈ (sweepOutState (runSweep solver opts init mags)).records,
        rec.eigs.length = opts.n_eigs) ∧
      (∀ ev ∈ (sweepOutState (runSweep solver opts init mags)).events,
        Event.isFullVec ev = false) ∧
      (List.Sorted (fun a b => a < b) mags →
        List.Sorted (fun a b => a < b)
          ((sweepOutState (runSweep solver opts init mags)).records.map
            StepRecord.wmag)) := by
  rcases (isOk_iff_exists _).mp hok with ⟨st', heq⟩
  rw [heq]
  simp only [sweepOutState]
  have hmap := runSweep_ok_records_map solver opts mags init st' heq
  rw [hrec] at hmap
  simp only [List.map_nil, List.nil_append] at hmap
  rcases runSweep_eigsOnly_shape solver opts hE hsol mags init st' heq with
    ⟨hrecs, hevs⟩
  refine ⟨hmap, ?_, ?_, ?_, ?_⟩
  · have hlen := congrArg List.length hmap
    simpa using hlen
  · intro rec hr
    rcases hrecs rec hr with hin | hlen
    · rw [hrec] at hin
      exact absurd hin (List.not_mem_nil rec)
    · exact hlen
  · intro ev hv
    rcases hevs ev hv with hin | hsolve
    · rw [hev] at hin
      exact absurd hin (List.not_mem_nil ev)
    · exact isFullVec_eq_false_of_isSolve ev hsolve
  · intro hsorted
    rw [hmap]
    exact hsorted

/-- Witness for C6: a 10-point sweep from 10 to 100 with a two-eigenvalue
request produces the ten magnitudes in order. -/
theorem eigs_only_sweep_shape_witness :
    (sweepOutState (runSweep (replicateSolver 1) optsTwoEigsOnly
        (zeroState 1) (waveMagnitudes 10 100 10))).records.map
        StepRecord.wmag = waveMagnitudes 10 100 10 ∧
      (sweepOutState (runSweep (replicateSolver 1) optsTwoEigsOnly
        (zeroState 1) (waveMagnitudes 10 100 10))).records.length = 10 ∧
      List.Sorted (fun a b => a < b)
        ((sweepOutState (runSweep (replicateSolver 1) optsTwoEigsOnly
          (zeroState 1) (waveMagnitudes 10 100 10))).records.map
          StepRecord.wmag) := by
  have h := eigs_only_sweep_shape (replicateSolver 1) optsTwoEigsOnly
    (zeroState 1) (waveMagnitudes 10 100 10) rfl rfl rfl
    (by
      intro A B r hr
      simp only [replicateSolver, Except.ok.injEq] at hr
      rw [← hr]
      simp)
    (by decide)
  have hlist : waveMagnitudes 10 100 10 =
      [10, 20, 30, 40, 50, 60, 70, 80, 90, 100] := by
    simp [waveMagnitudes, List.range_succ]
    norm_num
  have hsorted : List.Sorted (fun a b : ℚ => a < b)
      (waveMagnitudes 10 100 10) := by
    rw [hlist]
    simp [List.sorted_cons]
    norm_num
  refine ⟨h.1, ?_, h.2.2.2.2 hsorted⟩
  rw [h.2.1, hlist]
  rfl

/-- C9: when the eigensolver raises at some magnitude after a clean prefix,
the whole sweep aborts with exactly that step's error (later magnitudes are
never attempted), and the records emitted at the earlier — for an increasing
sweep strictly smaller — magnitudes are preserved. -/
theorem convergence_abort_preserves_records {n : ℕ} (solver : EigSolver n)
    (opts : SweepOptions) (init : SweepState n) (pre : List ℚ) (wmag : ℚ)
    (post : List ℚ) (hrec : init.records = [])
    (hpre : (runSweep solver opts init pre).isOk = true)
    (hfail : (sweepStep solver opts
      (sweepOutState (runSweep solver opts init pre)) wmag).isOk = false) :
    runSweep solver opts init (pre ++ wmag :: post) =
      sweepStep solver opts (sweepOutState (runSweep solver opts init pre))
        wmag ∧
      (sweepOutState (runSweep solver opts init
        (pre ++ wmag :: post))).records.map StepRecord.wmag = pre ∧
      (List.Sorted (fun a b => a < b) (pre ++ wmag :: post) →
        ∀ rec ∈ (sweepOutState (runSweep solver opts init
          (pre ++ wmag :: post))).records, rec.wmag < wmag) := by
  rcases (isOk_iff_exists _).mp hpre with ⟨st1, heq⟩
  rw [heq] at hfail
  simp only [sweepOutState] at hfail
  cases hs : sweepStep solver opts st1 wmag with
  | ok st2 => rw [hs] at hfail; exact absurd hfail (by simp [Except.isOk, Except.toBool])
  | error p =>
      rcases p with ⟨st2, e⟩
      have hfull : runSweep solver opts init (pre ++ wmag :: post) =
          Except.error (st2, e) := by
        rw [runSweep_append solver opts (wmag :: post) pre init, heq]
        simp only [runSweep]
        rw [hs]
      have hst2 := (sweepStep_error solver opts st1 st2 wmag e hs).1
      have hmap := runSweep_ok_records_map solver opts pre init st1 heq
      rw [hrec] at hmap
      simp only [List.map_nil, List.nil_append] at hmap
      have hup : (sweepOutState (runSweep solver opts init
          (pre ++ wmag :: post))).records.map StepRecord.wmag = pre := by
        rw [hfull]
        simp only [sweepOutState]
        rw [hst2, hmap]
      refine ⟨by rw [hfull, heq]; simp only [sweepOutState]; rw [hs], hup, ?_⟩
      intro hsorted rec hr
      have hmem : rec.wmag ∈ pre := by
        rw [← hup]
        exact List.mem_map_of_mem StepRecord.wmag hr
      have hcross := (List.pairwise_append.mp hsorted).2.2
      exact hcross rec.wmag hmem wmag (List.mem_cons_self wmag post)

/-- Witness for C9: a diverging solver at the very first magnitude aborts the
two-point sweep with no record emitted. -/
theorem convergence_abort_preserves_records_witness :
    runSweep (divergingSolver 1) optsTwoEigsOnly (zeroState 1)
        ([] ++ (5 : ℚ) :: [9]) =
      sweepStep (divergingSolver 1) optsTwoEigsOnly
        (sweepOutState (runSweep (divergingSolver 1) optsTwoEigsOnly
          (zeroState 1) [])) 5 ∧
      (sweepOutState (runSweep (divergingSolver 1) optsTwoEigsOnly
        (zeroState 1) ([] ++ (5 : ℚ) :: [9]))).records.map
        StepRecord.wmag = [] :=
  ⟨(convergence_abort_preserves_records (divergingSolver 1) optsTwoEigsOnly
      (zeroState 1) [] 5 [9] rfl rfl rfl).1,
    (convergence_abort_preserves_records (divergingSolver 1) optsTwoEigsOnly
      (zeroState 1) [] 5 [9] rfl rfl rfl).2.1⟩

/-! ### C5 -/

/-- C5 counterexample: with reduced dimension n = 2 and a requested
eigenvalue count of 3 > 2, the sweep raises no dimension or configuration
error at all: the eigensolver is invoked (the sole recorded event is a
solver call) and the run completes successfully. -/
theorem no_dimension_check_counterexample :
    optsThreeWithVecs.n_eigs = 3 ∧ (2 : ℕ) < 3 ∧
      (runSweep (replicateSolver 2) optsThreeWithVecs (zeroState 2)
        [7]).isOk = true ∧
      (sweepOutState (runSweep (replicateSolver 2) optsThreeWithVecs
        (zeroState 2) [7])).events.map Event.isSolve = [true] :=
  ⟨rfl, by norm_num, rfl, rfl⟩

/-- C5 amended: the sweep performs no n_eigs-versus-dimension validation:
even when `n_eigs` exceeds the reduced dimension n, every step invokes the
eigensolver (the invocation is the first event the step appends), and a
step can only fail with the error raised by the solver call itself. -/
theorem solve_attempted_without_dimension_check {n : ℕ}
    (solver : EigSolver n) (opts : SweepOptions) (st : SweepState n)
    (wmag : ℚ) (hdim : n < opts.n_eigs) :
    ((sweepOutState (sweepStep solver opts st wmag)).events.drop
        st.events.length).head? = some (Event.solveCalled wmag
          (mtxA st.mtx_k st.mtx_s st.mtx_r (wmag : ℝ)) st.mtx_m
          opts.n_eigs (!opts.eigs_only)) ∧
      ∀ st1 e, sweepStep solver opts st wmag = Except.error (st1, e) →
        solver (mtxA st.mtx_k st.mtx_s st.mtx_r (wmag : ℝ)) st.mtx_m
          opts.n_eigs (!opts.eigs_only) = Except.error e := by
  constructor
  · rcases sweepStep_events solver opts st wmag with ⟨tail, heq, _⟩
    rw [heq, List.drop_left]
    rfl
  · intro st1 e h
    exact (sweepStep_error solver opts st st1 wmag e h).2

/-- Witness for C5 (amended) at n = 2 with three requested eigenvalues. -/
theorem solve_attempted_without_dimension_check_witness :
    (2 : ℕ) < optsThreeWithVecs.n_eigs ∧
      ((sweepOutState (sweepStep (replicateSolver 2) optsThreeWithVecs
          (zeroState 2) 7)).events.drop 0).head? =
        some (Event.solveCalled 7
          (mtxA (zeroState 2).mtx_k (zeroState 2).mtx_s (zeroState 2).mtx_r
            ((7 : ℚ) : ℝ)) (zeroState 2).mtx_m optsThreeWithVecs.n_eigs
          (!optsThreeWithVecs.eigs_only)) :=
  ⟨by norm_num [optsThreeWithVecs],
    (solve_attempted_without_dimension_check (replicateSolver 2)
      optsThreeWithVecs (zeroState 2) 7 (by norm_num [optsThreeWithVecs])).1⟩

/-! ### C2 -/

theorem runSweep_records_omegas {n : ℕ} (solver : EigSolver n)
    (opts : SweepOptions) :
    ∀ (mags : List ℚ) (st : SweepState n),
      (∀ rec ∈ st.records, rec.omegas = rec.eigs.map npSqrt) →
      ∀ rec ∈ (sweepOutState (runSweep solver opts st mags)).records,
        rec.omegas = rec.eigs.map npSqrt := by
  intro mags
  induction mags with
  | nil => intro st h; exact h
  | cons wmag rest ih =>
      intro st h
      simp only [runSweep]
      cases hs : sweepStep solver opts st wmag with
      | error p =>
          rcases p with ⟨st2, e⟩
          simp only [sweepOutState]
          have hrec := (sweepStep_error solver opts st st2 wmag e hs).1
          rw [hrec]
          exact h
      | ok st1 =>
          refine ih st1 ?_
          rcases sweepStep_ok_records solver opts st st1 wmag hs with
            ⟨eigs, hrec⟩
          rw [hrec]
          intro rec hr
          rcases List.mem_append.mp hr with hin | hin
          · exact h rec hin
          · rcases List.mem_singleton.mp hin with rfl
            rfl

/-- C2 counterexample: an eigenvalue of −10⁻¹⁵ — negative by far less than
any plausible tolerance — is not clamped to 0: the recorded frequency is the
NaN produced by `numpy.sqrt`, so a within-tolerance negative eigenvalue does
surface as a NaN frequency. -/
theorem clamping_counterexample :
    (sweepOutState (runSweep (noiseSolver 1) optsTwoEigsOnly (zeroState 1)
        [5])).records =
      [⟨5, [-(1 : ℚ)/1000000000000000],
        [npSqrt (-(1 : ℚ)/1000000000000000)]⟩] ∧
      npSqrt (-(1 : ℚ)/1000000000000000) = NpFloat.nan := by
  constructor
  · rfl
  · unfold npSqrt
    rw [if_neg]
    norm_num

/-- C2 amended: no clamping is applied before the square root: every
record's frequencies are exactly the unmodified elementwise `numpy.sqrt`
image of its eigenvalues, and `numpy.sqrt` maps every negative eigenvalue —
however close to zero — to NaN and every non-negative one to its square
root. -/
theorem omegas_unclamped {n : ℕ} (solver : EigSolver n)
    (opts : SweepOptions) (init : SweepState n) (mags : List ℚ)
    (hrec : init.records = []) :
    (∀ rec ∈ (sweepOutState (runSweep solver opts init mags)).records,
      rec.omegas = rec.eigs.map npSqrt) ∧
      (∀ x : ℚ, x < 0 → npSqrt x = NpFloat.nan) ∧
      (∀ x : ℚ, 0 ≤ x → npSqrt x = NpFloat.sqrtOf x) := by
  refine ⟨runSweep_records_omegas solver opts mags init ?_, ?_, ?_⟩
  · rw [hrec]
    intro rec hr
    exact absurd hr (List.not_mem_nil rec)
  · intro x hx
    simp [npSqrt, not_le.mpr hx]
  · intro x hx
    simp [npSqrt, hx]

/-- Witness for C2 (amended): `numpy.sqrt` at −10⁻¹⁵ and at 1. -/
theorem omegas_unclamped_witness :
    npSqrt (-(1 : ℚ)/1000000000000000) = NpFloat.nan ∧
      npSqrt (1 : ℚ) = NpFloat.sqrtOf 1 :=
  ⟨(omegas_unclamped (noiseSolver 1) optsTwoEigsOnly (zeroState 1) [5]
      rfl).2.1 _ (by norm_num),
    (omegas_unclamped (noiseSolver 1) optsTwoEigsOnly (zeroState 1) [5]
      rfl).2.2 _ (by norm_num)⟩

/-! ### C8 and C10 -/

theorem foldl_max_zero : ∀ (l : List ℚ), (∀ x ∈ l, x = 0) →
    l.foldl max 0 = 0 := by
  intro l
  induction l with
  | nil => intro _; rfl
  | cons y ys ih =>
      intro h
      have hy : y = 0 := h y (List.mem_cons_self y ys)
      simp only [List.foldl_cons, hy, max_self]
      exact ih (fun x hx => h x (List.mem_cons_of_mem y hx))

/-- C8: when the difference of two sparse matrices has no stored nonzero
entry (in particular when both operands are entirely empty), the symmetry
diagnostic returns exactly 0.0 and raises no error: the guarded
max-on-empty-array branch is never reached. -/
theorem max_diff_csr_zero_diff (mtx1 mtx2 : Csr)
    (h : ∀ e ∈ (csrSub mtx1 mtx2).data, e.2 = 0) :
    max_diff_csr mtx1 mtx2 = Except.ok 0 := by
  have key : ∀ (l : List ((ℕ × ℕ) × ℚ)), (∀ e ∈ l, e.2 = 0) →
      (if (l.map (fun a => |a.2|)).length ≠ 0
        then npMax (l.map (fun a => |a.2|))
        else Except.ok 0) = Except.ok 0 := by
    intro l hl
    cases l with
    | nil => simp
    | cons e es =>
        rw [if_pos (by simp)]
        simp only [List.map_cons, npMax, Except.ok.injEq]
        have he : |e.2| = (0 : ℚ) := by
          rw [hl e (List.mem_cons_self e es), abs_zero]
        rw [he]
        apply foldl_max_zero
        intro x hx
        rcases List.mem_map.mp hx with ⟨a, ha, rfl⟩
        rw [hl a (List.mem_cons_of_mem e ha), abs_zero]
  exact key (csrSub mtx1 mtx2).data h

/-- Witness for C8: the entirely empty matrix checked against its own
transpose. -/
theorem max_diff_csr_zero_diff_witness :
    max_diff_csr ⟨[]⟩ (csrTranspose ⟨[]⟩) = Except.ok 0 :=
  max_diff_csr_zero_diff ⟨[]⟩ (csrTranspose ⟨[]⟩)
    (by intro e he; exact absurd he (List.not_mem_nil e))

/-- C10: the wave-direction normalization truncates the input to the
spatial dimension and divides by its Euclidean norm with no zero-norm
guard: an all-zero (truncated) direction yields NaN in every component
instead of a raised error (the computation is total). -/
theorem zero_direction_gives_nan (wave_dir : List ℚ) (dim : ℕ)
    (h : ∀ x ∈ wave_dir.take dim, x = 0) :
    ∀ y ∈ normalizeWdir wave_dir dim, y = NpVal.nan := by
  intro y hy
  simp only [normalizeWdir] at hy
  rcases List.mem_map.mp hy with ⟨x, hx, rfl⟩
  have hx0 : x = 0 := h x hx
  have hns : normSq (wave_dir.take dim) = 0 := by
    simp only [normSq]
    refine List.sum_eq_zero ?_
    intro z hz
    rcases List.mem_map.mp hz with ⟨a, ha, rfl⟩
    rw [h a ha]
    norm_num
  rw [hx0, hns]
  simp [npDivBySqrt]

/-- Witness for C10: the all-zero three-component direction truncated to a
two-dimensional problem normalizes to NaN in both components. -/
theorem zero_direction_gives_nan_witness :
    normalizeWdir [(0 : ℚ), 0, 0] 2 = List.replicate 2 NpVal.nan := by
  have h := zero_direction_gives_nan [(0 : ℚ), 0, 0] 2 (by simp)
  exact List.eq_replicate_iff.mpr ⟨rfl, h⟩

end DispersionAnalysis
